import Mathlib

/-!
Verification development for the `custom-dlt-rs` blockchain library.

This file gives a shallow embedding of the blockchain state engine
(`src/lib/types/blockchain.rs`), the Merkle-root helper
(`src/lib/src/util.rs`), the wallet coin selection
(`src/wallet/src/core.rs`) and the relevant part of the node handler
(`src/node/src/handler.rs`), and proves (or refutes) the stated
properties about them.

Modelling conventions:
* `Hash` (a 256-bit SHA-256 digest in the source, `src/lib/src/sha256.rs`,
  which is not part of the provided sources) is modelled as `Nat`; every
  hashing operation (`Hash::hash` of a transaction, of a block header, of
  a `TransactionOutput`, or of a pair of hashes) is an explicit function
  parameter of the embedded operations, since a cryptographic digest is
  opaque to the logic.  Per the spec, "a hash matches target T iff
  interpreted as a 256-bit unsigned integer it is ≤ T".
* `u64` / `U256` quantities are modelled as `Nat`.  Where the source's
  bounded arithmetic could overflow or panic this is noted at the
  definition; the theorems carry the corresponding side conditions.
* `DateTime<Utc>` timestamps are modelled as `Int` (seconds); chrono's
  `Duration::num_seconds` of a difference of whole-second timestamps is
  exactly their difference.
* `HashMap<Hash, (bool, TransactionOutput)>` is modelled as a
  key-unique association list `List (Nat × Bool × TransactionOutput)`
  with lookup / replace-insert / remove defined by key equality.
* Fallible functions return `Except`.
-/

namespace CustomDlt

/-- Model of a 256-bit digest (`sha256.rs`). -/
abbrev Hash := Nat

/-- Modelled from the spec: a `Signature` binds to a `Hash` and is
verifiable against a public key; `Signature::sign_output(hash, key)`
produces it.  (`crypto.rs` is not among the provided sources.)  We keep
the signed hash and the signing key as data. -/
structure Signature where
  msgHash : Hash
  signerKey : Nat
deriving DecidableEq, Repr

/-- Modelled from the spec (`transaction.rs` is not among the provided
sources): `TransactionOutput { value: u64, unique_id: 128-bit UUID,
pubkey: PublicKey }`. -/
structure TransactionOutput where
  value : Nat
  unique_id : Nat
  pubkey : Nat
deriving DecidableEq, Repr

/-- Modelled from the spec: `TransactionInput { prev_output_hash: Hash,
signature: Signature }`. -/
structure TransactionInput where
  prev_transaction_output_hash : Hash
  signature : Signature
deriving DecidableEq, Repr

/-- Modelled from the spec: a transaction is a list of inputs and a list
of outputs. -/
structure Transaction where
  inputs : List TransactionInput
  outputs : List TransactionOutput
deriving DecidableEq, Repr

/-- Modelled from the spec (`block.rs` is not among the provided
sources): `BlockHeader { timestamp, prev_block_hash, nonce, target,
merkle_root }`. -/
structure BlockHeader where
  timestamp : Int
  nonce : Nat
  prev_block_hash : Hash
  merkle_root : Hash
  target : Nat
deriving DecidableEq, Repr

/-- Modelled from the spec: a block is a header plus its transactions. -/
structure Block where
  header : BlockHeader
  transactions : List Transaction
deriving DecidableEq, Repr

/-- Default block used to totalize list indexing (the corresponding
source expressions are `unwrap`s that cannot fail on the stated
domains). -/
def defaultBlock : Block :=
  { header := { timestamp := 0, nonce := 0, prev_block_hash := 0,
                merkle_root := 0, target := 0 },
    transactions := [] }

/-- One entry of the UTXO map: key, `marked` flag, output. -/
abbrev UtxoEntry := Nat × Bool × TransactionOutput

/-- The `Blockchain` struct of `src/lib/types/blockchain.rs`. -/
structure Blockchain where
  utxos : List UtxoEntry
  target : Nat
  blocks : List Block
  mempool : List (Int × Transaction)
deriving DecidableEq, Repr

/-- Errors of `src/lib/src/error.rs` used by the blockchain engine
(the `reason` strings carried by some variants are irrelevant to
control flow and omitted). -/
inductive BtcError where
  | InvalidTransaction
  | InvalidBlock
  | InvalidMerkleRoot
deriving DecidableEq, Repr

/-! ### Constants (`src/lib/src/lib.rs`) -/

def INITIAL_REWARD : Nat := 50

def HALVING_INTERVAL : Nat := 210

def IDEAL_BLOCK_TIME : Nat := 10

/-- `MIN_TARGET` is the `U256` with little-endian 64-bit words
`[0xFFFF_FFFF_FFFF_FFFF, 0xFFFF_FFFF_FFFF_FFFF, 0xFFFF_FFFF_FFFF_FFFF,
0x0000_FFFF_FFFF_FFFF]`, i.e. `2^240 - 1`. -/
def MIN_TARGET : Nat := 2 ^ 240 - 1

def DIFFICULTY_UPDATE_INTERVAL : Nat := 50

def MAX_MEMPOOL_TRANSACTION_AGE : Nat := 600

/-! ### UTXO map operations (`HashMap` semantics on association lists) -/

/-- `self.utxos.get(&k)` on the association-list model. -/
def utxoGet (utxos : List UtxoEntry) (k : Nat) : Option (Bool × TransactionOutput) :=
  (utxos.find? (fun e => e.1 = k)).map Prod.snd

/-- `self.utxos.contains_key(&k)`. -/
def utxoContainsKey (utxos : List UtxoEntry) (k : Nat) : Bool :=
  (utxoGet utxos k).isSome

/-- `self.utxos.entry(k).and_modify(|(marked, _)| *marked = b)`:
set the `marked` flag of the entry with key `k`, if present. -/
def utxoSetMark (utxos : List UtxoEntry) (k : Nat) (b : Bool) : List UtxoEntry :=
  utxos.map (fun e => if e.1 = k then (e.1, b, e.2.2) else e)

/-- Value of the UTXO referenced by an input (the source `unwrap`s /
`expect`s the lookup, which on the relevant paths cannot fail because
the key was checked to exist; absent keys are totalized to value 0). -/
def inputValue (utxos : List UtxoEntry) (i : TransactionInput) : Nat :=
  match utxoGet utxos i.prev_transaction_output_hash with
  | some (_, o) => o.value
  | none => 0

/-- Sum of the values of the UTXOs referenced by a transaction's inputs
(the `all_inputs` sums of `add_to_mempool`). -/
def txInputsValue (utxos : List UtxoEntry) (tx : Transaction) : Nat :=
  (tx.inputs.map (inputValue utxos)).sum

/-- Sum of a transaction's output values (`all_outputs`). -/
def txOutputsValue (tx : Transaction) : Nat :=
  (tx.outputs.map (fun o => o.value)).sum

/-- The miner fee used as the mempool sort key:
`all_inputs - all_outputs` in `u64` arithmetic; on every admitted
transaction inputs ≥ outputs, so the truncated `Nat` subtraction agrees
with the source. -/
def minerFee (utxos : List UtxoEntry) (tx : Transaction) : Nat :=
  txInputsValue utxos tx - txOutputsValue tx

/-! ### Merkle root (`src/lib/src/util.rs`, `MerkleRoot::calculate`) -/

/-- `layer.chunks(2)`: split a list into consecutive chunks of size 2
(the last chunk may be a singleton). -/
def chunksTwo : List Hash → List (List Hash)
  | [] => []
  | [x] => [[x]]
  | x :: y :: rest => [x, y] :: chunksTwo rest

/-- One round of the source loop: for each chunk, `left = pair[0]`,
`right = pair.get(1).unwrap_or(&pair[0])`, push `hash([left, right])`.
Hashing the two-element array is an opaque combining function
`pairHash`. -/
def merkleStep (pairHash : Hash → Hash → Hash) (layer : List Hash) : List Hash :=
  (chunksTwo layer).map (fun c => pairHash (c.getD 0 0) (c.getD 1 (c.getD 0 0)))

/-- The `while layer.len() > 1` loop of `MerkleRoot::calculate`,
followed by `layer[0]` (totalized to 0 on the empty input, on which the
source panics; callers never pass it). -/
def merkleLoop (pairHash : Hash → Hash → Hash) (layer : List Hash) : Hash :=
  if _h : layer.length ≤ 1 then layer.getD 0 0
  else merkleLoop pairHash (merkleStep pairHash layer)
termination_by layer.length
decreasing_by
  have key : ∀ l : List Hash, (chunksTwo l).length = (l.length + 1) / 2 := by
    intro l
    induction l using chunksTwo.induct with
    | case1 => simp [chunksTwo]
    | case2 _ => simp [chunksTwo]
    | case3 x y rest ih => simp [chunksTwo, ih]; omega
  simp only [merkleStep, List.length_map, key]
  omega

/-- `MerkleRoot::calculate(transactions)`: hash every transaction to
form the leaf layer, then fold pairs until a single hash remains. -/
def merkleCalculate (txHash : Transaction → Hash) (pairHash : Hash → Hash → Hash)
    (transactions : List Transaction) : Hash :=
  merkleLoop pairHash (transactions.map txHash)

/-- Reference fold from the spec's words (§4.1): "While more than one
element remains, fold pairwise: `new[i] = hash(left || right)` where
`right = left` when the count is odd (last element duplicated)." -/
def combinePairsSpec (pairHash : Hash → Hash → Hash) : List Hash → List Hash
  | [] => []
  | [x] => [pairHash x x]
  | x :: y :: rest => pairHash x y :: combinePairsSpec pairHash rest

/-- The spec-side loop: repeat `combinePairsSpec` while more than one
hash remains; the root is the single remaining hash. -/
def merkleLoopSpec (pairHash : Hash → Hash → Hash) (layer : List Hash) : Hash :=
  if _h : layer.length ≤ 1 then layer.getD 0 0
  else merkleLoopSpec pairHash (combinePairsSpec pairHash layer)
termination_by layer.length
decreasing_by
  have key : ∀ l : List Hash, (combinePairsSpec pairHash l).length = (l.length + 1) / 2 := by
    intro l
    induction l using chunksTwo.induct with
    | case1 => simp [combinePairsSpec]
    | case2 _ => simp [combinePairsSpec]
    | case3 x y rest ih => simp [combinePairsSpec, ih]; omega
  simp only [key]
  omega

/-- Spec-side Merkle root: leaves are `hash(tx)` in order, then the
pairwise fold. -/
def merkleRootSpec (txHash : Transaction → Hash) (pairHash : Hash → Hash → Hash)
    (transactions : List Transaction) : Hash :=
  merkleLoopSpec pairHash (transactions.map txHash)

/-! ### Stable ascending sort (`Vec::sort_by_key`)

`slice::sort_by_key` is a *stable* sort in *ascending* key order.  We
model it as a stable insertion sort: each element is inserted after all
already-placed elements whose key is `≤` its own. -/

/-- Insert `x` into `l` after every element with key `≤ key x`. -/
def insertAscBy (key : α → Nat) (x : α) : List α → List α
  | [] => [x]
  | y :: ys => if key y ≤ key x then y :: insertAscBy key x ys else x :: y :: ys

/-- Stable ascending sort by `key` (model of `sort_by_key`). -/
def sortAscBy (key : α → Nat) (l : List α) : List α :=
  l.foldl (fun acc x => insertAscBy key x acc) []

/-! ### Mempool admission (`Blockchain::add_to_mempool`) -/

/-- STEP 1 of `add_to_mempool`: walk the inputs with a growing
`known_inputs` set; fail if an input's UTXO is absent or the input is
duplicated within the transaction. -/
def inputsExistAndUnique (utxos : List UtxoEntry) :
    List TransactionInput → List Nat → Bool
  | [], _ => true
  | i :: rest, known =>
    if ¬ utxoContainsKey utxos i.prev_transaction_output_hash then false
    else if i.prev_transaction_output_hash ∈ known then false
    else inputsExistAndUnique utxos rest (i.prev_transaction_output_hash :: known)

/-- The RBF search of STEP 2: `self.mempool.iter().enumerate().find(...)`
looking for the first mempool transaction one of whose *outputs* hashes
to the referenced key `h`; returns its index and the transaction. -/
def findReferencing (outHash : TransactionOutput → Hash) (h : Hash) :
    List (Int × Transaction) → Option (Nat × Transaction)
  | [] => none
  | (_, tx) :: rest =>
    if tx.outputs.any (fun o => outHash o = h) then some (0, tx)
    else (findReferencing outHash h rest).map (fun p => (p.1 + 1, p.2))

/-- Clear the `marked` flag of every UTXO referenced by the given
inputs (the unmark loop inside the RBF branch). -/
def unmarkInputs (utxos : List UtxoEntry) (inputs : List TransactionInput) :
    List UtxoEntry :=
  inputs.foldl (fun u i => utxoSetMark u i.prev_transaction_output_hash false) utxos

/-- One iteration of the STEP 2 loop of `add_to_mempool`, acting on the
current `(utxos, mempool)` state for one input of the new transaction. -/
def rbfStep (outHash : TransactionOutput → Hash)
    (st : List UtxoEntry × List (Int × Transaction)) (i : TransactionInput) :
    List UtxoEntry × List (Int × Transaction) :=
  match utxoGet st.1 i.prev_transaction_output_hash with
  | some (true, _) =>
    match findReferencing outHash i.prev_transaction_output_hash st.2 with
    | some (idx, refTx) =>
      (unmarkInputs st.1 refTx.inputs, st.2.eraseIdx idx)
    | none =>
      (utxoSetMark st.1 i.prev_transaction_output_hash false, st.2)
  | _ => st

/-- `Blockchain::add_to_mempool`.  `outHash` models
`TransactionOutput::hash`; `now` is the timestamp `Utc::now()` recorded
with the new mempool entry. -/
def addToMempool (outHash : TransactionOutput → Hash) (now : Int)
    (chain : Blockchain) (tx : Transaction) : Except BtcError Blockchain :=
  -- STEP 1: all inputs exist and are unique within the transaction.
  if ¬ inputsExistAndUnique chain.utxos tx.inputs [] then
    .error .InvalidTransaction
  else
    -- STEP 2: replace-by-fee pass over the inputs.
    let st := tx.inputs.foldl (rbfStep outHash) (chain.utxos, chain.mempool)
    -- STEP 3: economic validation on the post-RBF UTXO set.
    if txInputsValue st.1 tx < txOutputsValue tx then
      .error .InvalidTransaction
    else
      -- STEP 4: mark every referenced UTXO.
      let utxos2 := tx.inputs.foldl
        (fun u i => utxoSetMark u i.prev_transaction_output_hash true) st.1
      -- STEP 5 and 6: push `(now, tx)` and sort ascending by miner fee.
      let mempool2 := sortAscBy (fun e => minerFee utxos2 e.2) (st.2 ++ [(now, tx)])
      .ok { chain with utxos := utxos2, mempool := mempool2 }

/-! ### Difficulty retargeting (`Blockchain::try_adjust_target`)

The source computes
`BigDecimal(target) * (BigDecimal(diff_seconds) / BigDecimal(ideal))`
and truncates at the decimal point.  `ideal = IDEAL_BLOCK_TIME *
DIFFICULTY_UPDATE_INTERVAL = 500 = 2^2 * 5^3`, so the `BigDecimal`
division is exact (every integer divided by 500 has a finite decimal
expansion far below the crate's 100-digit division precision), and the
whole computation is exact rational arithmetic; we model it with `Rat`.
A negative difference would make `U256::from_str_radix` panic in the
source; the model truncates toward zero via `Int.div` and `Int.toNat`,
and the theorems assume the monotone-timestamp invariant. -/

/-- Truncation of a rational at the decimal point (toward zero), as
performed by splitting the `BigDecimal` string at `.`. -/
def ratTruncToZero (q : Rat) : Int := q.num.tdiv (q.den : Int)

/-- `Blockchain::try_adjust_target`, as a function of the block list
and the current target (the only state it reads and writes). -/
def tryAdjustTarget (blocks : List Block) (target : Nat) : Nat :=
  if blocks.isEmpty then target
  else if blocks.length % DIFFICULTY_UPDATE_INTERVAL ≠ 0 then target
  else
    let start_time := (blocks.getD (blocks.length - DIFFICULTY_UPDATE_INTERVAL)
      defaultBlock).header.timestamp
    let end_time := (blocks.getLastD defaultBlock).header.timestamp
    let time_diff_seconds : Int := end_time - start_time
    let target_seconds : Nat := IDEAL_BLOCK_TIME * DIFFICULTY_UPDATE_INTERVAL
    let new_target_rat : Rat :=
      (target : Rat) * ((time_diff_seconds : Rat) / (target_seconds : Rat))
    let new_target : Nat := (ratTruncToZero new_target_rat).toNat
    let clamped : Nat :=
      if new_target < target / 4 then target / 4
      else if new_target > target * 4 then target * 4
      else new_target
    min clamped MIN_TARGET

/-! ### Block append (`Blockchain::add_block`) -/

/-- `self.block_height()`. -/
def blockHeight (chain : Blockchain) : Nat := chain.blocks.length

/-- Common tail of both `add_block` branches: drop mempool entries whose
transaction hash appears in the block, push the block, and run
`try_adjust_target`. -/
def pushBlock (txHash : Transaction → Hash) (chain : Blockchain) (block : Block) :
    Blockchain :=
  let blockTxHashes := block.transactions.map txHash
  let mempool2 := chain.mempool.filter (fun e => ¬ txHash e.2 ∈ blockTxHashes)
  let blocks2 := chain.blocks ++ [block]
  { chain with
    mempool := mempool2
    blocks := blocks2
    target := tryAdjustTarget blocks2 chain.target }

/-- `Blockchain::add_block`.  `headerHash` models `BlockHeader::hash`
(and `Block::hash`, which per the spec is the hash of the header);
`verifyTxs` models `Block::verify_transactions(height, utxos)` (defined
in the absent `block.rs`), taken as an opaque parameter because
`add_block` only propagates its result.  A hash matches a target iff it
is numerically `≤` the target (spec §3). -/
def addBlock (headerHash : BlockHeader → Hash) (txHash : Transaction → Hash)
    (pairHash : Hash → Hash → Hash)
    (verifyTxs : Nat → List UtxoEntry → Block → Except BtcError Unit)
    (chain : Blockchain) (block : Block) : Except BtcError Blockchain :=
  if chain.blocks.isEmpty then
    if block.header.prev_block_hash ≠ 0 then .error .InvalidBlock
    else .ok (pushBlock txHash chain block)
  else
    if block.header.prev_block_hash ≠
        headerHash (chain.blocks.getLastD defaultBlock).header then
      .error .InvalidBlock
    else if ¬ headerHash block.header ≤ block.header.target then
      .error .InvalidBlock
    else if merkleCalculate txHash pairHash block.transactions ≠ block.header.merkle_root then
      .error .InvalidMerkleRoot
    else if block.header.timestamp ≤
        (chain.blocks.getLastD defaultBlock).header.timestamp then
      .error .InvalidBlock
    else
      match verifyTxs (blockHeight chain) chain.utxos block with
      | .error e => .error e
      | .ok _ => .ok (pushBlock txHash chain block)

/-! ### Mempool cleanup (`Blockchain::cleanup_mempool`) -/

/-- `Blockchain::cleanup_mempool` at time `now`: retain entries no
older than `MAX_MEMPOOL_TRANSACTION_AGE` seconds, collect the input
hashes of the dropped transactions in order, then unmark them all. -/
def cleanupMempool (now : Int) (chain : Blockchain) : Blockchain :=
  let expired := fun (e : Int × Transaction) =>
    decide ((MAX_MEMPOOL_TRANSACTION_AGE : Int) < now - e.1)
  let removed := chain.mempool.filter expired
  let kept := chain.mempool.filter (fun e => ¬ expired e)
  let toUnmark := removed.flatMap
    (fun e => e.2.inputs.map (fun i => i.prev_transaction_output_hash))
  { chain with
    mempool := kept
    utxos := toUnmark.foldl (fun u h => utxoSetMark u h false) chain.utxos }

/-! ### UTXO rebuild (`Blockchain::rebuild_utxos`) -/

/-- `Blockchain::calculate_block_reward`:
`(INITIAL_REWARD * 10^8) >> (block_height / HALVING_INTERVAL)` in `u64`
arithmetic.  `INITIAL_REWARD * 10^8 = 5 * 10^9 < 2^64` is exact, but a
`u64` shift is only defined for shift amounts below 64: from height
`64 * HALVING_INTERVAL` Rust masks the shift amount to `halvings % 64`
in release builds (modelled here) and panics in debug builds, so the
reward snaps back to the full initial reward instead of staying 0.
Below 64 halvings the masked and unbounded shifts agree. -/
def calculateBlockReward (chain : Blockchain) : Nat :=
  let halvings := blockHeight chain / HALVING_INTERVAL
  (INITIAL_REWARD * 10 ^ 8) >>> (halvings % 64)

/-! ### `SubmitTemplate` handling (`src/node/src/handler.rs`) -/

/-- Output-hash instance for concrete runs: the output's `unique_id`. -/
def exOutHash : TransactionOutput → Hash := fun o => o.unique_id

/-- Header-hash instance for concrete runs: the header's nonce. -/
def exHeaderHash : BlockHeader → Hash := fun h => h.nonce

/-- Transaction-hash instance for concrete runs. -/
def exTxHash : Transaction → Hash := fun t => t.outputs.length

/-- Pair-combining hash instance for concrete runs. -/
def exPairHash : Hash → Hash → Hash := fun a b => 2 * a + 3 * b + 1

/-- A dummy signature (signature contents never influence the engine). -/
def sig0 : Signature := ⟨0, 0⟩

/-- A `verify_transactions` instance that accepts every block. -/
def exVerifyOk : Nat → List UtxoEntry → Block → Except BtcError Unit :=
  fun _ _ _ => .ok ()

/-- The confirmed UTXO `U` of the replace-by-fee scenario: value 10,
stored under key 100. -/
def exU : TransactionOutput := ⟨10, 100, 7⟩

/-- Chain state holding only `U`, with an empty mempool. -/
def exChain0 : Blockchain := ⟨[(100, false, exU)], 5000, [], []⟩

/-- Transaction `A`: spends `U` (key 100), pays 9, fee 1. -/
def exA : Transaction := ⟨[⟨100, sig0⟩], [⟨9, 1, 8⟩]⟩

/-- Transaction `B`: also spends `U`, pays 5, fee 5. -/
def exB : Transaction := ⟨[⟨100, sig0⟩], [⟨5, 2, 8⟩]⟩

/-- State after admitting `A`: `U` is marked, mempool holds `A`. -/
def exChain1 : Blockchain := ⟨[(100, true, exU)], 5000, [], [(0, exA)]⟩

/-- State after then admitting `B`: `U` still marked, and the mempool
holds *both* `A` and `B`. -/
def exChain2 : Blockchain := ⟨[(100, true, exU)], 5000, [], [(0, exA), (1, exB)]⟩

/-- First UTXO of the fee-ordering scenario: value 12, key 101. -/
def ex2U1 : TransactionOutput := ⟨12, 101, 7⟩

/-- Second UTXO of the fee-ordering scenario: value 10, key 102. -/
def ex2U2 : TransactionOutput := ⟨10, 102, 7⟩

/-- Chain state holding the two UTXOs. -/
def ex2Chain0 : Blockchain := ⟨[(101, false, ex2U1), (102, false, ex2U2)], 5000, [], []⟩

/-- Spends key 101 (value 12), pays 11: fee 1. -/
def ex2A : Transaction := ⟨[⟨101, sig0⟩], [⟨11, 3, 8⟩]⟩

/-- Spends key 102 (value 10), pays 4: fee 6. -/
def ex2B : Transaction := ⟨[⟨102, sig0⟩], [⟨4, 4, 8⟩]⟩

/-- State after admitting the fee-1 transaction. -/
def ex2Chain1 : Blockchain :=
  ⟨[(101, true, ex2U1), (102, false, ex2U2)], 5000, [], [(0, ex2A)]⟩

/-- State after then admitting the fee-6 transaction: the mempool is in
*ascending* fee order. -/
def ex2Chain2 : Blockchain :=
  ⟨[(101, true, ex2U1), (102, true, ex2U2)], 5000, [], [(0, ex2A), (1, ex2B)]⟩

/-- A candidate genesis block with a zero `prev_block_hash` but an
absurd proof of work (header hash 3 > target 0), a wrong Merkle root,
and a transaction outspending its (empty) inputs. -/
def ex5Genesis : Block :=
  { header := { timestamp := 0, nonce := 3, prev_block_hash := 0,
                merkle_root := 77, target := 0 },
    transactions := [⟨[], [⟨10, 1, 8⟩]⟩] }

/-- Three transactions for the Merkle witness (an odd leaf layer). -/
def ex6Txs : List Transaction :=
  [⟨[], [⟨1, 1, 1⟩]⟩, ⟨[], []⟩, ⟨[], [⟨1, 1, 1⟩, ⟨2, 2, 2⟩]⟩]

/-! ## Theorems -/

/-- The source's chunked combining round computes the spec's pairwise
fold. -/
theorem merkleStep_eq_combinePairs (pairHash : Hash → Hash → Hash) (l : List Hash) :
    merkleStep pairHash l = combinePairsSpec pairHash l := by
  induction l using chunksTwo.induct with
  | case1 => simp [merkleStep, chunksTwo, combinePairsSpec]
  | case2 x => simp [merkleStep, chunksTwo, combinePairsSpec]
  | case3 x y rest ih =>
    simp [merkleStep, chunksTwo, combinePairsSpec] at ih ⊢
    exact ih

/-- Length of one spec combining round. -/
theorem combinePairsSpec_length (pairHash : Hash → Hash → Hash) (l : List Hash) :
    (combinePairsSpec pairHash l).length = (l.length + 1) / 2 := by
  induction l using chunksTwo.induct with
  | case1 => simp [combinePairsSpec]
  | case2 x => simp [combinePairsSpec]
  | case3 x y rest ih => simp [combinePairsSpec, ih]; omega

/-- The source loop and the spec loop agree on every layer. -/
theorem merkleLoop_eq_spec (pairHash : Hash → Hash → Hash) (layer : List Hash) :
    merkleLoop pairHash layer = merkleLoopSpec pairHash layer := by
  have H : ∀ n (layer : List Hash), layer.length ≤ n →
      merkleLoop pairHash layer = merkleLoopSpec pairHash layer := by
    intro n
    induction n with
    | zero =>
      intro layer hlen
      rw [merkleLoop, merkleLoopSpec]
      simp_all
    | succ n ih =>
      intro layer hlen
      rw [merkleLoop, merkleLoopSpec]
      by_cases h : layer.length ≤ 1
      · simp [h]
      · simp only [h, dite_false]
        rw [merkleStep_eq_combinePairs]
        exact ih _ (by rw [combinePairsSpec_length]; omega)
  exact H layer.length layer le_rfl

/-- C6: for every non-empty list of transactions,
`MerkleRoot::calculate` equals the spec's reference fold: leaves are
`hash(tx)` in order; while more than one hash remains, adjacent pairs
are combined as `hash(left || right)` with the last element duplicated
when the layer has odd length; the result is the single remaining
hash. -/
theorem merkleCalculate_eq_spec_fold (txHash : Transaction → Hash)
    (pairHash : Hash → Hash → Hash) (txs : List Transaction) (_hne : txs ≠ []) :
    merkleCalculate txHash pairHash txs = merkleRootSpec txHash pairHash txs := by
  unfold merkleCalculate merkleRootSpec
  exact merkleLoop_eq_spec pairHash (txs.map txHash)

/-- Witness for `merkleCalculate_eq_spec_fold` at a concrete odd-length
transaction list. -/
theorem merkleCalculate_eq_spec_fold_witness :
    ex6Txs ≠ [] ∧
      merkleCalculate exTxHash exPairHash ex6Txs = merkleRootSpec exTxHash exPairHash ex6Txs :=
  ⟨by decide, merkleCalculate_eq_spec_fold exTxHash exPairHash ex6Txs (by decide)⟩

/-- C7 counterexample: the claim's unbounded-shift formula fails on the
code at height `64 * HALVING_INTERVAL` (reachable after about 37 hours
of chain at the ideal block time).  There the `u64` shift amount is 64:
release builds mask it to 0, so the reward is the full
`INITIAL_REWARD * 10^8` again (debug builds panic and produce no value
at all) — not the `0` demanded both by the unbounded formula and by the
`k = 64` instance of `block_reward(k*HALVING_INTERVAL) ==
block_reward(0) >> k`. -/
theorem calculateBlockReward_unbounded_shift_fails :
    calculateBlockReward (Blockchain.mk [] 0
        (List.replicate (64 * HALVING_INTERVAL) defaultBlock) []) =
      INITIAL_REWARD * 10 ^ 8
    ∧ calculateBlockReward (Blockchain.mk [] 0
        (List.replicate (64 * HALVING_INTERVAL) defaultBlock) []) ≠
      (INITIAL_REWARD * 10 ^ 8) >>> ((64 * HALVING_INTERVAL) / HALVING_INTERVAL)
    ∧ calculateBlockReward (Blockchain.mk [] 0
        (List.replicate (64 * HALVING_INTERVAL) defaultBlock) []) ≠
      calculateBlockReward (Blockchain.mk [] 0 [] []) >>> 64 := by
  have hlen : (Blockchain.mk [] 0
      (List.replicate (64 * HALVING_INTERVAL) defaultBlock) []).blocks.length =
      64 * HALVING_INTERVAL := by
    simp
  refine ⟨?_, ?_, ?_⟩ <;> simp only [calculateBlockReward, blockHeight, hlen] <;> decide

/-- C7 (amended): within the `u64` shift domain — fewer than 64
halvings, i.e. heights below `64 * HALVING_INTERVAL` — the block reward
equals `(INITIAL_REWARD * 10^8) >> (height / HALVING_INTERVAL)` where
the height is the current number of blocks; the reward at height
`HALVING_INTERVAL` is half the height-0 reward, and at height
`k * HALVING_INTERVAL` with `k < 64` it is the height-0 reward shifted
right by `k`.  (At 64 halvings and beyond the source masks the shift
amount in release builds and panics in debug builds, so the unbounded
formula fails there.) -/
theorem calculateBlockReward_halving :
    (∀ chain : Blockchain, chain.blocks.length / HALVING_INTERVAL < 64 →
      calculateBlockReward chain =
        (INITIAL_REWARD * 10 ^ 8) >>> (chain.blocks.length / HALVING_INTERVAL))
    ∧ (∀ c1 c0 : Blockchain, c1.blocks.length = HALVING_INTERVAL →
        c0.blocks.length = 0 →
        calculateBlockReward c1 = calculateBlockReward c0 / 2)
    ∧ (∀ (k : Nat) (c1 c0 : Blockchain), k < 64 →
        c1.blocks.length = k * HALVING_INTERVAL →
        c0.blocks.length = 0 →
        calculateBlockReward c1 = calculateBlockReward c0 >>> k) := by
  refine ⟨fun chain hlt => ?_, fun c1 c0 h1 h0 => ?_, fun k c1 c0 hk h1 h0 => ?_⟩
  · simp only [calculateBlockReward, blockHeight]
    rw [Nat.mod_eq_of_lt hlt]
  · simp [calculateBlockReward, blockHeight, h1, h0]
    decide
  · simp only [calculateBlockReward, blockHeight, h1, h0]
    rw [Nat.mul_div_cancel k (by norm_num [HALVING_INTERVAL]), Nat.mod_eq_of_lt hk]
    norm_num

/-- Witness for `calculateBlockReward_halving` at one halving
interval. -/
theorem calculateBlockReward_halving_witness :
    (Blockchain.mk [] 0 (List.replicate 210 defaultBlock) []).blocks.length
        = 1 * HALVING_INTERVAL ∧
      calculateBlockReward (Blockchain.mk [] 0 (List.replicate 210 defaultBlock) []) =
        calculateBlockReward (Blockchain.mk [] 0 [] []) >>> 1 :=
  ⟨by rw [List.length_replicate]; decide,
   calculateBlockReward_halving.2.2 1 _ _ (by decide)
     (by rw [List.length_replicate]; decide) rfl⟩

/-- C1 (refuted, code bug): the replace-by-fee search of
`add_to_mempool` looks for a mempool transaction whose *outputs* hash
to the doubly-spent UTXO key, but the conflicting predecessor
references that key as an *input* and its outputs hash elsewhere, so
the predecessor is never found and never removed.  Concretely: `A` and
`B` both spend the UTXO stored under key 100; after admitting `A` and
then `B`, both admissions succeed and the mempool contains *both* `A`
and `B` (the claim requires exactly `B`), with key 100 still marked. -/
theorem addToMempool_rbf_keeps_replaced_transaction :
    addToMempool exOutHash 0 exChain0 exA = .ok exChain1 ∧
      addToMempool exOutHash 1 exChain1 exB = .ok exChain2 ∧
      exChain2.mempool.map Prod.snd = [exA, exB] ∧
      exChain2.mempool.length = 2 ∧
      utxoGet exChain2.utxos 100 = some (true, exU) :=
  ⟨rfl, rfl, by decide, by decide, by decide⟩

/-- C2 (refuted, code bug): `sort_by_key` sorts the mempool in
*ascending* key order, so after admitting a fee-1 and then a fee-6
transaction the mempool fees read `[1, 6]`: the entry at index 0 has a
strictly smaller fee than the entry at index 1, contradicting
descending fee order. -/
theorem addToMempool_fee_sort_ascending :
    addToMempool exOutHash 0 ex2Chain0 ex2A = .ok ex2Chain1 ∧
      addToMempool exOutHash 1 ex2Chain1 ex2B = .ok ex2Chain2 ∧
      ex2Chain2.mempool.map (fun e => minerFee ex2Chain2.utxos e.2) = [1, 6] ∧
      minerFee ex2Chain2.utxos (ex2Chain2.mempool.getD 0 (0, ex2A)).2 <
        minerFee ex2Chain2.utxos (ex2Chain2.mempool.getD 1 (0, ex2A)).2 :=
  ⟨rfl, rfl, by decide, by decide⟩

/-- C5: on an empty chain, `add_block` fails with `InvalidBlock`
exactly when the block's `prev_block_hash` differs from the zero hash;
when it is the zero hash the block is appended with no further
validation: the result is fully determined (the block is pushed, the
mempool is only pruned of the block's own transactions, the target is
unchanged) for *every* header content, every transaction list, and
every `verify_transactions` function — so no proof-of-work, merkle,
timestamp, or transaction check runs on the genesis block. -/
theorem addBlock_genesis_only_prev_check
    (headerHash : BlockHeader → Hash) (txHash : Transaction → Hash)
    (pairHash : Hash → Hash → Hash)
    (verifyTxs : Nat → List UtxoEntry → Block → Except BtcError Unit)
    (chain : Blockchain) (block : Block) (hempty : chain.blocks = []) :
    addBlock headerHash txHash pairHash verifyTxs chain block =
      if block.header.prev_block_hash ≠ 0 then .error .InvalidBlock
      else .ok { chain with
                 mempool := chain.mempool.filter
                   (fun e => ¬ txHash e.2 ∈ block.transactions.map txHash)
                 blocks := [block] } := by
  have htgt : tryAdjustTarget [block] chain.target = chain.target := by
    simp [tryAdjustTarget, DIFFICULTY_UPDATE_INTERVAL]
  by_cases hprev : block.header.prev_block_hash = 0
  · simp [addBlock, hempty, hprev, pushBlock, htgt]
  · simp [addBlock, hempty, hprev]

/-- Witness for `addBlock_genesis_only_prev_check`: a genesis block
with failing proof of work, wrong merkle root, and an invalid coinbase
is still appended to the empty chain. -/
theorem addBlock_genesis_only_prev_check_witness :
    addBlock exHeaderHash exTxHash exPairHash exVerifyOk
        (Blockchain.mk [] 5000 [] []) ex5Genesis =
      .ok (Blockchain.mk [] 5000 [ex5Genesis] []) := by
  rw [addBlock_genesis_only_prev_check exHeaderHash exTxHash exPairHash exVerifyOk
    (Blockchain.mk [] 5000 [] []) ex5Genesis rfl]
  rfl

/-- Lookup after setting one mark: only the targeted key changes, and
only its flag. -/
theorem utxoGet_cons (ek : Nat) (em : Bool) (eo : TransactionOutput)
    (rest : List UtxoEntry) (j : Nat) :
    utxoGet ((ek, em, eo) :: rest) j =
      if ek = j then some (em, eo) else utxoGet rest j := by
  by_cases h : ek = j <;> simp [utxoGet, List.find?_cons, h]

/-- Lookup after setting one mark: only the targeted key changes, and
only its flag. -/
theorem utxoGet_setMark (u : List UtxoEntry) (k : Nat) (b : Bool) (j : Nat) :
    utxoGet (utxoSetMark u k b) j =
      if j = k then (utxoGet u j).map (fun p => (b, p.2)) else utxoGet u j := by
  induction u with
  | nil => simp [utxoGet, utxoSetMark]
  | cons e rest ih =>
    obtain ⟨ek, em, eo⟩ := e
    have hcons : utxoSetMark ((ek, em, eo) :: rest) k b =
        (if ek = k then (ek, b, eo) else (ek, em, eo)) :: utxoSetMark rest k b := by
      simp [utxoSetMark]
    rw [hcons]
    by_cases hek : ek = k <;> by_cases hj : ek = j
    · subst hek
      subst hj
      rw [if_pos rfl, utxoGet_cons, utxoGet_cons]
      simp
    · subst hek
      rw [if_pos rfl, utxoGet_cons, if_neg hj, ih, utxoGet_cons, if_neg hj]
    · subst hj
      rw [if_neg hek, utxoGet_cons, if_pos rfl, if_neg (fun hh : ek = k => hek hh),
        utxoGet_cons, if_pos rfl]
    · rw [if_neg hek, utxoGet_cons, if_neg hj, ih, utxoGet_cons, if_neg hj]

/-- Lookup after unmarking a whole list of keys. -/
theorem utxoGet_foldl_unmark (L : List Nat) (u : List UtxoEntry) (k : Nat) :
    utxoGet (L.foldl (fun acc h => utxoSetMark acc h false) u) k =
      if k ∈ L then (utxoGet u k).map (fun p => (false, p.2)) else utxoGet u k := by
  induction L generalizing u with
  | nil => simp
  | cons h0 L ih =>
    simp only [List.foldl_cons, List.mem_cons]
    rw [ih (utxoSetMark u h0 false), utxoGet_setMark]
    by_cases hk0 : k = h0
    · subst hk0
      by_cases hkL : k ∈ L
      · simp [hkL]
        cases utxoGet u k <;> simp
      · simp [hkL]
    · by_cases hkL : k ∈ L
      · simp [hk0, hkL]
      · simp [hk0, hkL]

/-- C9: `cleanup_mempool` at time `now` keeps exactly the mempool
entries whose age is at most `MAX_MEMPOOL_TRANSACTION_AGE` seconds;
every UTXO referenced by an input of a removed transaction keeps its
output but has its `marked` flag cleared; every other UTXO, and the
`blocks` and `target` fields, are unchanged. -/
theorem cleanupMempool_frame (now : Int) (chain : Blockchain) (k : Nat) :
    (cleanupMempool now chain).mempool =
      chain.mempool.filter
        (fun e => now - e.1 ≤ (MAX_MEMPOOL_TRANSACTION_AGE : Int))
    ∧ (cleanupMempool now chain).blocks = chain.blocks
    ∧ (cleanupMempool now chain).target = chain.target
    ∧ utxoGet (cleanupMempool now chain).utxos k =
        (if k ∈ (chain.mempool.filter
              (fun e => (MAX_MEMPOOL_TRANSACTION_AGE : Int) < now - e.1)).flatMap
              (fun e => e.2.inputs.map (fun i => i.prev_transaction_output_hash))
          then (utxoGet chain.utxos k).map (fun p => (false, p.2))
          else utxoGet chain.utxos k) := by
  refine ⟨?_, rfl, rfl, ?_⟩
  · simp only [cleanupMempool]
    apply List.filter_congr
    intro e _
    simp [Int.not_lt]
  · simp only [cleanupMempool]
    rw [utxoGet_foldl_unmark]

